import Mathlib

/-!
Verification of the iiod data-plane engine (`src/iiod/ops.c`).

This file gives a shallow embedding of the session multiplexer of `ops.c`:
the per-device acquisition worker `read_thd`, the attach path `read_buffer`,
the reliable writer `write_all`, and the attribute access `read_dev_attr`.
Machine integers are modelled as `Nat`/`Int` with explicit reductions modulo
`2^32` (`unsigned int`) and `2^64` (`size_t`) exactly where the C code
performs an implicit conversion.  External effects (the blocking hardware
read `iio_device_read_raw`, `malloc`, per-client `fwrite` progress, waiters
attaching concurrently) are supplied as explicit oracle inputs to each loop
iteration, so every definition is executable.
-/

namespace Iiod

/-- One item appearing on a client's output stream (`FILE *fd`):
a numeric status line (`fprintf "%li\n"`), a human-readable error line
(`fprintf "ERROR ...: %s\n"`), or `n` bytes of raw payload pushed by
`write_all`. -/
inductive OutItem where
  | status (n : Int)
  | errMsg (code : Int)
  | data (bytes : Nat)
  deriving DecidableEq, Repr

/-- `struct ThdEntry` of ops.c: one blocked client read request.
`nb` is the remaining sample count (a C `unsigned int`), `err` the outcome
(`ssize_t err`), `fd` the client sink contents, `verbose` the formatting
mode.  `tid` and `nb0` are ghost bookkeeping (identity and the initially
requested count); `woken` counts `pthread_cond_signal` calls on this record. -/
structure ThdEntry where
  tid : Nat
  nb0 : Nat
  nb : Nat
  err : Int
  verbose : Bool
  fd : List OutItem
  woken : Nat
  deriving DecidableEq, Repr

/-- Payload size of an output item, `none` for status lines. -/
def dataBytes : OutItem → Option Nat
  | .data n => some n
  | _ => none

/-- Whether an output item is a status line (numeric or human-readable),
as opposed to payload bytes. -/
def isStatusItem : OutItem → Bool
  | .status _ => true
  | .errMsg _ => true
  | .data _ => false

/-- Total payload bytes delivered so far on a record's sink. -/
def ThdEntry.delivered (t : ThdEntry) : Nat :=
  (t.fd.filterMap dataBytes).sum

/-- The `ThdEntry` that `read_buffer` allocates before attaching
(`thd->nb = nb; thd->fd = pdata->out; thd->verbose = pdata->verbose`). -/
def mk_thd (tid nb : Nat) (verbose : Bool) : ThdEntry :=
  ⟨tid, nb, nb, 0, verbose, [], 0⟩

/-- Loop of `write_all` (ops.c lines 66-77).  `chunks` is the oracle of
successive `fwrite` progress values (each call writes `min chunk len` bytes;
a zero-progress call makes `write_all` fail with `-EIO`).  Returns the C
return value (`ptr - src`, i.e. the full length, on success; `-EIO` = `-5`
on zero progress) paired with the number of bytes actually pushed to the
sink before returning. -/
def write_all_loop : List Nat → Nat → Nat → Int × Nat
  | _, 0, written => (((written : Nat) : Int), written)
  | [], _ + 1, written => (-5, written)
  | c :: cs, len + 1, written =>
      let got := min c (len + 1)
      if got = 0 then (-5, written)
      else write_all_loop cs (len + 1 - got) (written + got)

/-- `write_all(src, len, out)` of ops.c. -/
def write_all (chunks : List Nat) (len : Nat) : Int × Nat :=
  write_all_loop chunks len 0

/-- Conversion of a C `ssize_t` value to `size_t` (the implicit conversion
at `size_t ret2; ... ret2 = write_all(...)`, ops.c line 128/147). -/
def to_size_t (x : Int) : Nat :=
  (x % (18446744073709551616 : Int)).toNat

/-- Truncation of an integer to a C `unsigned int`
(the compound assignment `thd->nb -= ...`, ops.c line 149). -/
def u32_of (x : Int) : Nat :=
  (x % (4294967296 : Int)).toNat

/-- Body of the `SLIST_FOREACH` broadcast loop of `read_thd`
(ops.c lines 127-161) for one waiter.  `ret` is the result of the round's
`iio_device_read_raw`; `chunks` is this waiter's `fwrite` progress oracle.
Returns the updated record and whether it was removed from the list
(and signalled).  Note `ret2` is a `size_t` in the source, so the
`ret2 < 0` test is on an unsigned value. -/
def step_thd (ss : Nat) (ret : Int) (chunks : List Nat) (t : ThdEntry) :
    ThdEntry × Bool :=
  let t1 : ThdEntry :=
    if t.verbose = false then { t with fd := t.fd ++ [OutItem.status ret] }
    else if ret < 0 then { t with fd := t.fd ++ [OutItem.errMsg ret] }
    else t
  if ret < 0 then (t1, false)
  else
    let nb_samples := ret.toNat / ss
    if nb_samples > t1.nb then (t1, false)
    else
      let w := write_all chunks ret.toNat
      let ret2 : Nat := to_size_t w.1
      let t2 : ThdEntry := { t1 with fd := t1.fd ++ [OutItem.data w.2] }
      let t3 : ThdEntry :=
        if 0 < ret2 then
          { t2 with nb := u32_of ((t2.nb : Int) - ((ret2 / ss : Nat) : Int)) }
        else t2
      if ret2 < 0 then ({ t3 with err := w.1, woken := t3.woken + 1 }, true)
      else if t3.nb = 0 then ({ t3 with err := 0, woken := t3.woken + 1 }, true)
      else (t3, false)

/-- The whole broadcast loop over the waiter list, in list order.
`ws` supplies each position's `fwrite` oracle.  The boolean marks records
that the loop removed (`SLIST_REMOVE` + signal). -/
def step_each : Nat → Int → List (List Nat) → List ThdEntry →
    List (ThdEntry × Bool)
  | _, _, _, [] => []
  | ss, ret, ws, t :: rest =>
      step_thd ss ret (ws.headD []) t :: step_each ss ret ws.tail rest

/-- Waiters still attached after a broadcast round. -/
def round_kept (ss : Nat) (ret : Int) (ws : List (List Nat))
    (l : List ThdEntry) : List ThdEntry :=
  (step_each ss ret ws l).filterMap fun r => if r.2 then none else some r.1

/-- Waiters removed and signalled during a broadcast round. -/
def round_done (ss : Nat) (ret : Int) (ws : List (List Nat))
    (l : List ThdEntry) : List ThdEntry :=
  (step_each ss ret ws l).filterMap fun r => if r.2 then some r.1 else none

/-- The batch-size computation of `read_thd` (ops.c lines 91, 106-109):
`nb_samples` starts at `max_size` and is lowered to any smaller
`thd->nb` found in the waiter list. -/
def roundBatch (max_size : Nat) (l : List ThdEntry) : Nat :=
  l.foldl (fun m t => if t.nb < m then t.nb else m) max_size

/-- Spec-side definition: the minimum of `remaining` over all current
waiters (only meaningful for a non-empty list). -/
def minRemaining : List ThdEntry → Nat
  | [] => 0
  | [t] => t.nb
  | t :: rest => min t.nb (minRemaining rest)

/-- Byte length `len = nb_samples * sample_size` handed to `malloc` and
`iio_device_read_raw` in one round (ops.c line 113), with
`max_size = 1024 / sample_size` (line 87). -/
def round_len (ss : Nat) (l : List ThdEntry) : Nat :=
  roundBatch (1024 / ss) l * ss

/-- `SLIST_INSERT_HEAD` of each newly attaching waiter, in attach order. -/
def attach_all (news : List ThdEntry) (l : List ThdEntry) : List ThdEntry :=
  news.foldl (fun acc t => t :: acc) l

/-- External inputs of one `read_thd` loop iteration: whether `malloc`
succeeds, waiters that attach before this round's batch computation
(`preAttach`) and during the blocking read (`newThds`), the value returned
by `iio_device_read_raw`, and each waiter position's `fwrite` oracle. -/
structure RoundOracle where
  mallocOk : Bool
  preAttach : List ThdEntry
  newThds : List ThdEntry
  readRet : Int
  ws : List (List Nat)
  deriving Repr

/-- Worker loop state: the `ret` carried across iterations, the live
waiter list, and (ghost) the records removed-and-signalled so far. -/
structure LoopState where
  ret : Int
  thdlist : List ThdEntry
  done : List ThdEntry
  deriving Repr

/-- Result of one loop iteration: either the loop breaks (with the
final `ret`, the waiter list to drain, and completions so far), or it
continues with a new state. -/
inductive StepRes where
  | exit (ret : Int) (l : List ThdEntry) (done : List ThdEntry)
  | cont (s : LoopState)
  deriving Repr

/-- One iteration of the `while (true)` loop of `read_thd`
(ops.c lines 89-166): exit if the previous round failed; exit if the
waiter list is empty; compute the batch; exit with `-ENOMEM` if `malloc`
fails; otherwise issue the blocking read and broadcast the result. -/
def loop_step (ss : Nat) (o : RoundOracle) (s : LoopState) : StepRes :=
  let l0 := attach_all o.preAttach s.thdlist
  if s.ret < 0 then .exit s.ret l0 s.done
  else if l0 = [] then .exit s.ret l0 s.done
  else if o.mallocOk = false then .exit (-12) l0 s.done
  else
    let ret := o.readRet
    let bl := attach_all o.newThds l0
    .cont ⟨ret, round_kept ss ret o.ws bl, s.done ++ round_done ss ret o.ws bl⟩

/-- The drain loop after loop exit (ops.c lines 168-177): every remaining
waiter is removed, gets `err := ret` if the loop ended in an error, and is
signalled. -/
def drain (ret : Int) (l : List ThdEntry) : List ThdEntry :=
  l.map fun t =>
    { t with err := if ret < 0 then ret else t.err, woken := t.woken + 1 }

/-- Outcome of running the worker over a list of round oracles: either the
loop exited (final `ret`, drained waiters, completions), or the oracles ran
out while the worker was still running. -/
inductive RunRes where
  | finished (ret : Int) (drained : List ThdEntry) (done : List ThdEntry)
  | running (s : LoopState)
  deriving Repr

/-- Execution of `read_thd`'s loop plus its drain, driven by oracles. -/
def read_thd_run (ss : Nat) (s : LoopState) : List RoundOracle → RunRes
  | [] => .running s
  | o :: os =>
      match loop_step ss o s with
      | .exit ret l done => .finished ret (drain ret l) done
      | .cont s2 => read_thd_run ss s2 os

/-- Records that have been removed-and-signalled with an individual
outcome (as opposed to being flushed by the drain). -/
def completedOf : RunRes → List ThdEntry
  | .finished _ _ done => done
  | .running s => s.done

/-- Records still attached (or flushed by the final drain). -/
def keptOf : RunRes → List ThdEntry
  | .finished _ dr _ => dr
  | .running s => s.thdlist

/-- Tail of `read_buffer` (ops.c lines 282-288): the woken client thread
reads its record's `err` and returns either the negative error or
`nb * sample_size`.  Both operands are C `unsigned int`s, so the product
is computed modulo `2^32` before widening to the `ssize_t` return
value. -/
def read_buffer_result (nb ss : Nat) (err : Int) : Int :=
  if err < 0 then err else ((nb * ss % 4294967296 : Nat) : Int)

/-- `struct DevEntry` as seen by the registry (`devlist_head`): the device
it owns (identified by a number standing for the `iio_device` pointer),
its fixed sample size, and its waiter list. -/
structure Session where
  dev : Nat
  sample_size : Nat
  thdlist : List ThdEntry
  deriving DecidableEq, Repr

/-- Result of the registry part of `read_buffer` (ops.c lines 201-272):
the returned error code (`0` when a waiter was attached), the new device
list, the bytes written to the requesting client's sink along the way
(always none on this path), and flags telling whether a new session was
created and whether the request got attached. -/
structure RBRes where
  ret : Int
  devlist : List Session
  out : List OutItem
  created : Bool
  attached : Bool
  deriving DecidableEq, Repr

/-- `SLIST_INSERT_HEAD(&entry->thdlist_head, thd, next)` on the (first)
session owning `dev`. -/
def attach_in : List Session → Nat → ThdEntry → List Session
  | [], _, _ => []
  | s :: rest, d, t =>
      if s.dev = d then { s with thdlist := t :: s.thdlist } :: rest
      else s :: attach_in rest d t

/-- `SLIST_REMOVE(&devlist_head, entry, DevEntry, next)`: drop the (first)
session owning `dev`. -/
def remove_session : List Session → Nat → List Session
  | [], _ => []
  | s :: rest, d => if s.dev = d then rest else s :: remove_session rest d

/-- The find-or-create-and-attach front of `read_buffer`
(ops.c lines 201-272).  `thdMalloc`/`entMalloc` are the `malloc` oracles,
`openRet` the result of `iio_device_open`, `createRet` the result of
`pthread_create`.  The scan takes the first session whose device matches;
a sample-size mismatch fails with `-EINVAL` before anything is allocated
or modified. -/
def read_buffer_setup (devlist : List Session) (dev nb ss tid : Nat)
    (verbose : Bool) (thdMalloc entMalloc : Bool) (openRet createRet : Int) :
    RBRes :=
  match devlist.find? (fun e => e.dev = dev) with
  | some e =>
      if e.sample_size ≠ ss then ⟨-22, devlist, [], false, false⟩
      else if thdMalloc = false then ⟨-12, devlist, [], false, false⟩
      else ⟨0, attach_in devlist dev (mk_thd tid nb verbose), [], false, true⟩
  | none =>
      if thdMalloc = false then ⟨-12, devlist, [], false, false⟩
      else if entMalloc = false then ⟨-12, devlist, [], false, false⟩
      else if openRet ≠ 0 then ⟨openRet, devlist, [], false, false⟩
      else if createRet ≠ 0 then ⟨createRet, devlist, [], false, false⟩
      else ⟨0, ⟨dev, ss, [mk_thd tid nb verbose]⟩ :: devlist, [], true, true⟩

/-- One hardware device as seen by `get_device`: its stable id string and
its human-readable name. -/
structure IioDevice where
  id : String
  name : String
  deriving DecidableEq, Repr

/-- `get_device` (ops.c lines 291-303): linear scan of the context's
device list matching the id or the name. -/
def get_device (devices : List IioDevice) (ident : String) : Option IioDevice :=
  devices.find? fun d => d.id = ident || d.name = ident

/-- `read_dev_attr` (ops.c lines 323-354), with the hardware
`iio_device_attr_read` result and the two `write_all` oracle chunk lists
as inputs.  Returns the function's return value and the items written to
the client sink. -/
def read_dev_attr (devices : List IioDevice) (ident attrName : String)
    (verbose : Bool) (attrRet : Int) (ws1 ws2 : List Nat) :
    Int × List OutItem :=
  match get_device devices ident with
  | none =>
      if verbose then (-19, [OutItem.errMsg (-19)])
      else (-19, [OutItem.status (-19)])
  | some _ =>
      let out1 : List OutItem :=
        if verbose && decide (attrRet < 0) then [OutItem.errMsg attrRet]
        else [OutItem.status attrRet]
      if attrRet < 0 then (attrRet, out1)
      else
        let w1 := write_all ws1 attrRet.toNat
        let w2 := write_all ws2 1
        (w1.1, out1 ++ [OutItem.data w1.2, OutItem.data w2.2])

/-- Lock and I/O events of one normal `read_thd` iteration. -/
inductive LockEvent where
  | lockDev
  | unlockDev
  | lockThd
  | unlockThd
  | readRaw
  deriving DecidableEq, Repr

/-- The sequence of `pthread_mutex_lock`/`unlock` calls and the blocking
`iio_device_read_raw` call on the non-exiting path of one `read_thd`
iteration, in source order (ops.c lines 93, 100, 111, 120, 123, 124, 164). -/
def iterEvents : List LockEvent :=
  [.lockDev, .lockThd, .unlockThd, .unlockDev, .readRaw, .lockThd, .unlockThd]

/-- Which of (devlist lock, thdlist lock) are held after a prefix of
events has executed. -/
def heldAfter (evs : List LockEvent) : Bool × Bool :=
  evs.foldl
    (fun h e =>
      match e with
      | .lockDev => (true, h.2)
      | .unlockDev => (false, h.2)
      | .lockThd => (h.1, true)
      | .unlockThd => (h.1, false)
      | .readRaw => h)
    (false, false)

/-! ### Well-formedness of records and oracle traces -/

/-- Well-formedness of a waiter record for a session with sample size
`ss`: the payload delivered so far matches the samples already accounted
for, the remaining count never exceeds the requested count, and the
requested count fits in a C `unsigned int`. -/
def wfb (ss : Nat) (t : ThdEntry) : Bool :=
  t.delivered == (t.nb0 - t.nb) * ss &&
  decide (t.nb ≤ t.nb0) &&
  decide (t.nb0 < 4294967296)

/-- A realistic, well-behaved oracle for one round from state `s`: `malloc`
succeeds, all attaching records are fresh and well-formed, the blocking
read succeeds with a whole number of samples no larger than the requested
length, and every waiter's sink accepts the full broadcast buffer. -/
def goodOracle (ss : Nat) (s : LoopState) (o : RoundOracle) : Bool :=
  let l0 := attach_all o.preAttach s.thdlist
  let bl := attach_all o.newThds l0
  o.mallocOk &&
  (o.preAttach ++ o.newThds).all (fun t => wfb ss t) &&
  decide (0 ≤ o.readRet) &&
  decide (ss ∣ o.readRet.toNat) &&
  decide (o.readRet.toNat ≤ round_len ss l0) &&
  (List.range bl.length).all
    (fun i => (write_all (o.ws.getD i []) o.readRet.toNat).1 ==
      ((o.readRet.toNat : Nat) : Int)) &&
  decide (((o.preAttach ++ o.newThds ++ s.thdlist ++ s.done).map
    ThdEntry.tid).Nodup)

/-- A well-behaved run: every consumed oracle is good for the state it is
consumed in. -/
def goodRun (ss : Nat) : LoopState → List RoundOracle → Bool
  | _, [] => true
  | s, o :: os =>
      goodOracle ss s o &&
      (match loop_step ss o s with
       | .exit _ _ _ => true
       | .cont s2 => goodRun ss s2 os)

/-- Worker-loop invariant: `ret` is non-negative, live records are
well-formed, completed records carry a success outcome with exactly their
requested payload delivered, and record identities are distinct. -/
def Inv (ss : Nat) (s : LoopState) : Prop :=
  0 ≤ s.ret ∧
  (∀ t ∈ s.thdlist, wfb ss t = true) ∧
  (∀ t ∈ s.done, t.err = 0 ∧ t.nb = 0 ∧ t.delivered = t.nb0 * ss) ∧
  ((s.thdlist ++ s.done).map ThdEntry.tid).Nodup

/-! ### Basic lemmas about `write_all` and the integer conversions -/

theorem write_all_loop_cases (chunks : List Nat) :
    ∀ len written, (write_all_loop chunks len written).1 = -5 ∨
      write_all_loop chunks len written =
        (((written + len : Nat) : Int), written + len) := by
  induction chunks with
  | nil =>
      intro len written
      cases len with
      | zero => right; simp [write_all_loop]
      | succ n => left; simp [write_all_loop]
  | cons c cs ih =>
      intro len written
      cases len with
      | zero => right; simp [write_all_loop]
      | succ n =>
          by_cases h : min c (n + 1) = 0
          · left; simp [write_all_loop, h]
          · have hrec := ih (n + 1 - min c (n + 1)) (written + min c (n + 1))
            rcases hrec with h1 | h1
            · left; simpa [write_all_loop, h] using h1
            · right
              have hle : min c (n + 1) ≤ n + 1 := Nat.min_le_right _ _
              have : written + min c (n + 1) + (n + 1 - min c (n + 1)) =
                  written + (n + 1) := by omega
              simpa [write_all_loop, h, this] using h1

theorem write_all_cases (chunks : List Nat) (n : Nat) :
    (write_all chunks n).1 = -5 ∨ write_all chunks n = (((n : Nat) : Int), n) := by
  have := write_all_loop_cases chunks n 0
  simpa [write_all] using this

/-- If `write_all` reports full success, it also pushed exactly the full
buffer to the sink. -/
theorem write_all_full (chunks : List Nat) (n : Nat)
    (h : (write_all chunks n).1 = ((n : Nat) : Int)) :
    write_all chunks n = (((n : Nat) : Int), n) := by
  rcases write_all_cases chunks n with h1 | h1
  · exfalso
    rw [h1] at h
    omega
  · exact h1

theorem to_size_t_ofNat (n : Nat) (h : n < 18446744073709551616) :
    to_size_t ((n : Nat) : Int) = n := by
  unfold to_size_t
  rw [Int.emod_eq_of_lt (by positivity) (by exact_mod_cast h)]
  rfl

theorem u32_of_sub (a b : Nat) (hba : b ≤ a) (ha : a < 4294967296) :
    u32_of ((a : Int) - (b : Int)) = a - b := by
  unfold u32_of
  rw [show ((a : Int) - (b : Int)) = ((a - b : Nat) : Int) by omega]
  rw [Int.emod_eq_of_lt (by positivity) (by omega)]
  simp

/-! ### Lemmas about delivered payload accounting -/

theorem to_size_t_zero : to_size_t 0 = 0 := rfl

theorem write_all_zero (chunks : List Nat) : write_all chunks 0 = (0, 0) := by
  cases chunks <;> rfl

theorem delivered_fd_append (t : ThdEntry) (xs : List OutItem) :
    ThdEntry.delivered { t with fd := t.fd ++ xs } =
      t.delivered + (xs.filterMap dataBytes).sum := by
  simp [ThdEntry.delivered, List.filterMap_append]

theorem delivered_status (t : ThdEntry) (n : Int) :
    ThdEntry.delivered { t with fd := t.fd ++ [OutItem.status n] } =
      t.delivered := by
  simp [delivered_fd_append, dataBytes]

theorem delivered_errMsg (t : ThdEntry) (n : Int) :
    ThdEntry.delivered { t with fd := t.fd ++ [OutItem.errMsg n] } =
      t.delivered := by
  simp [delivered_fd_append, dataBytes]

/-! ### Characterization of the broadcast body -/

/-- On a failed read the broadcast body only emits the status line
(numeric for non-verbose, human-readable for verbose) and leaves the
record attached and otherwise untouched. -/
theorem step_thd_neg (ss : Nat) (ret : Int) (chunks : List Nat)
    (t : ThdEntry) (hret : ret < 0) :
    step_thd ss ret chunks t =
      ({ t with fd := t.fd ++
          (if t.verbose then [OutItem.errMsg ret] else [OutItem.status ret]) },
        false) := by
  cases hv : t.verbose <;> simp [step_thd, hret, hv]

/-- The broadcast body never changes a record's identity, requested count,
or verbosity. -/
theorem step_thd_pres (ss : Nat) (ret : Int) (chunks : List Nat)
    (t : ThdEntry) :
    (step_thd ss ret chunks t).1.tid = t.tid ∧
    (step_thd ss ret chunks t).1.nb0 = t.nb0 ∧
    (step_thd ss ret chunks t).1.verbose = t.verbose := by
  simp only [step_thd]
  split_ifs <;> simp

/-- Full characterization of the broadcast body on a successful read whose
byte count is a whole number of samples and whose sink write succeeds:
either the batch exceeds what this record still needs (it is skipped), or
it receives the whole buffer and its remaining count drops by exactly the
read sample count, completing exactly when it reaches zero. -/
theorem step_thd_success (ss : Nat) (ret : Int) (chunks : List Nat)
    (t : ThdEntry) (hret : 0 ≤ ret)
    (hlt : ret.toNat < 18446744073709551616)
    (hw : (write_all chunks ret.toNat).1 = ((ret.toNat : Nat) : Int))
    (hnb : t.nb < 4294967296) :
    step_thd ss ret chunks t =
      (if ret.toNat / ss > t.nb then
        ({ t with fd := t.fd ++
            (if t.verbose then [] else [OutItem.status ret]) }, false)
      else if t.nb - ret.toNat / ss = 0 then
        ({ t with
            fd := t.fd ++ (if t.verbose then [] else [OutItem.status ret]) ++
              [OutItem.data ret.toNat],
            nb := t.nb - ret.toNat / ss, err := 0,
            woken := t.woken + 1 }, true)
      else
        ({ t with
            fd := t.fd ++ (if t.verbose then [] else [OutItem.status ret]) ++
              [OutItem.data ret.toNat],
            nb := t.nb - ret.toNat / ss }, false)) := by
  obtain ⟨tid, nb0, nb, err, vb, fd, wk⟩ := t
  have hnlt : ¬ ret < 0 := by omega
  set n := ret.toNat with hn
  have hwfull := write_all_full chunks n hw
  have hts : to_size_t ((n : Nat) : Int) = n := to_size_t_ofNat _ hlt
  by_cases hguard : nb < n / ss
  · cases vb <;> simp [step_thd, hnlt, hguard]
  · have hdivle : n / ss ≤ nb := Nat.not_lt.1 hguard
    have hnb' : nb < 4294967296 := hnb
    have hsub : u32_of ((nb : Int) - (n : Int) / (ss : Int)) =
        nb - n / ss := by
      rw [show ((n : Int) / (ss : Int)) = ((n / ss : Nat) : Int) from
        (Int.ofNat_div n ss).symm]
      exact u32_of_sub _ _ hdivle hnb'
    by_cases hz : 0 < n
    · cases vb <;>
        by_cases hrem : nb - n / ss = 0 <;>
          simp [step_thd, hnlt, hguard, hwfull, hts, hz, hsub, hrem]
    · have hr0 : ret.toNat = 0 := by omega
      have hnn : n = 0 := hr0
      cases vb <;>
        by_cases hrem : nb = 0 <;>
          simp [step_thd, hnlt, hguard, hr0, hnn, write_all_zero,
            to_size_t_zero, hrem]

/-- In a good round (read succeeded with whole samples, sink write
succeeds) the broadcast body preserves well-formedness, never increases
the remaining count, and sets a success outcome with a fully delivered
payload exactly on the records it removes. -/
theorem step_thd_good (ss : Nat) (ret : Int) (chunks : List Nat)
    (t : ThdEntry) (hret : 0 ≤ ret)
    (hlt : ret.toNat < 18446744073709551616)
    (hdvd : ss ∣ ret.toNat)
    (hw : (write_all chunks ret.toNat).1 = ((ret.toNat : Nat) : Int))
    (hwf : wfb ss t = true) :
    wfb ss (step_thd ss ret chunks t).1 = true ∧
    (step_thd ss ret chunks t).1.nb ≤ t.nb ∧
    ((step_thd ss ret chunks t).2 = true →
      (step_thd ss ret chunks t).1.err = 0 ∧
      (step_thd ss ret chunks t).1.nb = 0 ∧
      (step_thd ss ret chunks t).1.delivered =
        (step_thd ss ret chunks t).1.nb0 * ss) := by
  have hwf' := hwf
  unfold wfb at hwf'
  simp only [Bool.and_eq_true, beq_iff_eq, decide_eq_true_eq] at hwf'
  obtain ⟨⟨hdel, hle⟩, hlt32⟩ := hwf'
  have hnb32 : t.nb < 4294967296 := lt_of_le_of_lt hle hlt32
  rw [step_thd_success ss ret chunks t hret hlt hw hnb32]
  have hg : ret.toNat / ss * ss = ret.toNat := Nat.div_mul_cancel hdvd
  have hdelsum : (t.fd.filterMap dataBytes).sum = (t.nb0 - t.nb) * ss := hdel
  generalize hGot : ret.toNat / ss = got at hg ⊢
  by_cases hguard : got > t.nb
  · -- batch exceeds this record's need: skipped, untouched but for status
    rw [if_pos hguard]
    refine ⟨?_, le_refl _, by simp⟩
    unfold wfb
    cases hv : t.verbose <;>
      simp [ThdEntry.delivered, List.filterMap_append, dataBytes, hv,
        hdelsum, hle, hlt32]
  · rw [if_neg hguard]
    have hgle : got ≤ t.nb := Nat.not_lt.1 hguard
    have hdel2 : (t.fd.filterMap dataBytes).sum + ret.toNat =
        (t.nb0 - (t.nb - got)) * ss := by
      have h1 : t.nb0 - (t.nb - got) = t.nb0 - t.nb + got := by omega
      calc (t.fd.filterMap dataBytes).sum + ret.toNat
          = (t.nb0 - t.nb) * ss + got * ss := by rw [hdelsum, hg]
        _ = (t.nb0 - t.nb + got) * ss := by ring
        _ = (t.nb0 - (t.nb - got)) * ss := by rw [h1]
    by_cases hrem : t.nb - got = 0
    · -- removed with success: payload complete
      rw [if_pos hrem]
      have heq : (t.nb0 - (t.nb - got)) * ss = t.nb0 * ss := by
        rw [hrem, Nat.sub_zero]
      refine ⟨?_, Nat.sub_le _ _, fun _ => ⟨rfl, hrem, ?_⟩⟩
      · unfold wfb
        cases hv : t.verbose <;>
          simp [ThdEntry.delivered, List.filterMap_append, dataBytes, hv,
            hlt32, hrem] <;> omega
      · cases hv : t.verbose <;>
          simp [ThdEntry.delivered, List.filterMap_append, dataBytes, hv] <;>
            omega
    · -- kept with a smaller remaining count
      rw [if_neg hrem]
      refine ⟨?_, Nat.sub_le _ _, by simp⟩
      unfold wfb
      cases hv : t.verbose <;>
        simp [ThdEntry.delivered, List.filterMap_append, dataBytes, hv,
          hlt32] <;> omega

/-! ### The broadcast loop over the whole waiter list -/

theorem getD_tail (ws : List (List Nat)) (i : Nat) :
    ws.tail.getD i [] = ws.getD (i + 1) [] := by
  cases ws <;> rfl

theorem getD_zero_headD (ws : List (List Nat)) :
    ws.getD 0 [] = ws.headD [] := by
  cases ws <;> rfl

theorem step_thd_tid (ss : Nat) (ret : Int) (chunks : List Nat)
    (t : ThdEntry) : (step_thd ss ret chunks t).1.tid = t.tid :=
  (step_thd_pres ss ret chunks t).1

theorem step_each_map_tid (ss : Nat) (ret : Int) (ws : List (List Nat))
    (l : List ThdEntry) :
    (step_each ss ret ws l).map (fun r => r.1.tid) = l.map ThdEntry.tid := by
  induction l generalizing ws with
  | nil => rfl
  | cons t rest ih =>
      simp [step_each, step_thd_tid, ih]

theorem filterMap_split_perm {α : Type} (rs : List (α × Bool)) :
    ((rs.filterMap fun r => if r.2 then none else some r.1) ++
      (rs.filterMap fun r => if r.2 then some r.1 else none)).Perm
      (rs.map fun r => r.1) := by
  induction rs with
  | nil => simp
  | cons r rest ih =>
      cases hb : r.2
      · simpa [hb] using ih.cons r.1
      · simp only [List.filterMap_cons, hb, List.map_cons, if_true]
        exact List.Perm.trans List.perm_middle (ih.cons r.1)

/-- The records surviving a round together with the records removed by it
are a permutation of the broadcast body applied to every input record. -/
theorem round_split_perm (ss : Nat) (ret : Int) (ws : List (List Nat))
    (l : List ThdEntry) :
    (round_kept ss ret ws l ++ round_done ss ret ws l).Perm
      ((step_each ss ret ws l).map (fun r => r.1)) := by
  unfold round_kept round_done
  exact filterMap_split_perm _

/-- In a good round, every record produced by the broadcast loop is
well-formed, and removed records carry a success outcome with fully
delivered payload. -/
theorem step_each_good (ss : Nat) (ret : Int) (ws : List (List Nat))
    (l : List ThdEntry) (hret : 0 ≤ ret)
    (hlt : ret.toNat < 18446744073709551616)
    (hdvd : ss ∣ ret.toNat)
    (hws : ∀ i < l.length, (write_all (ws.getD i []) ret.toNat).1 =
      ((ret.toNat : Nat) : Int))
    (hl : ∀ t ∈ l, wfb ss t = true) :
    ∀ r ∈ step_each ss ret ws l,
      wfb ss r.1 = true ∧
      (r.2 = true → r.1.err = 0 ∧ r.1.nb = 0 ∧
        r.1.delivered = r.1.nb0 * ss) := by
  induction l generalizing ws with
  | nil => simp [step_each]
  | cons t rest ih =>
      intro r hr
      rcases List.mem_cons.1 hr with hr | hr
      · subst hr
        have h0 := hws 0 (by simp)
        rw [getD_zero_headD] at h0
        have hgood := step_thd_good ss ret (ws.headD []) t hret hlt hdvd h0
          (hl t (List.mem_cons_self t rest))
        exact ⟨hgood.1, hgood.2.2⟩
      · refine ih ws.tail ?_ ?_ r hr
        · intro i hi
          rw [getD_tail]
          exact hws (i + 1) (by simpa using Nat.succ_lt_succ hi)
        · intro t2 ht2
          exact hl t2 (List.mem_cons_of_mem t ht2)

/-! ### Batch size -/

theorem roundBatch_le (l : List ThdEntry) : ∀ m, roundBatch m l ≤ m := by
  induction l with
  | nil => intro m; exact le_refl m
  | cons t rest ih =>
      intro m
      have h := ih (if t.nb < m then t.nb else m)
      refine le_trans h ?_
      split <;> omega

theorem round_len_le (ss : Nat) (l : List ThdEntry) :
    round_len ss l ≤ 1024 := by
  unfold round_len
  calc roundBatch (1024 / ss) l * ss ≤ 1024 / ss * ss :=
        Nat.mul_le_mul_right ss (roundBatch_le l _)
    _ ≤ 1024 := Nat.div_mul_le_self 1024 ss

theorem roundBatch_eq_min (l : List ThdEntry) (hl : l ≠ []) :
    ∀ m, roundBatch m l = min m (minRemaining l) := by
  induction l with
  | nil => exact absurd rfl hl
  | cons t rest ih =>
      intro m
      cases rest with
      | nil =>
          simp only [roundBatch, minRemaining, List.foldl]
          rw [min_def]
          split_ifs <;> omega
      | cons r rs =>
          have step : roundBatch m (t :: r :: rs) =
              roundBatch (if t.nb < m then t.nb else m) (r :: rs) := rfl
          rw [step, ih (by simp) _]
          have hmin : minRemaining (t :: r :: rs) =
              min t.nb (minRemaining (r :: rs)) := rfl
          rw [hmin]
          rw [show (if t.nb < m then t.nb else m) = min m t.nb by
            rw [min_def]; split_ifs <;> omega]
          rw [min_assoc]

/-- `attach_all` inserts exactly the attaching records. -/
theorem attach_all_perm (news l : List ThdEntry) :
    (attach_all news l).Perm (news ++ l) := by
  induction news generalizing l with
  | nil => simp [attach_all]
  | cons n ns ih =>
      have h0 : attach_all (n :: ns) l = attach_all ns (n :: l) := rfl
      rw [h0]
      refine (ih (n :: l)).trans ?_
      exact List.perm_middle

/-! ### The worker loop under good oracles -/

theorem goodOracle_spec (ss : Nat) (s : LoopState) (o : RoundOracle)
    (h : goodOracle ss s o = true) :
    o.mallocOk = true ∧
    (∀ t ∈ o.preAttach ++ o.newThds, wfb ss t = true) ∧
    0 ≤ o.readRet ∧
    ss ∣ o.readRet.toNat ∧
    o.readRet.toNat ≤ round_len ss (attach_all o.preAttach s.thdlist) ∧
    (∀ i < (attach_all o.newThds (attach_all o.preAttach s.thdlist)).length,
      (write_all (o.ws.getD i []) o.readRet.toNat).1 =
        ((o.readRet.toNat : Nat) : Int)) ∧
    ((o.preAttach ++ o.newThds ++ s.thdlist ++ s.done).map
      ThdEntry.tid).Nodup := by
  unfold goodOracle at h
  simp only [Bool.and_eq_true, List.all_eq_true, decide_eq_true_eq,
    List.mem_range, beq_iff_eq] at h
  obtain ⟨⟨⟨⟨⟨⟨h1, h2⟩, h3⟩, h4⟩, h5⟩, h6⟩, h7⟩ := h
  exact ⟨h1, h2, h3, h4, h5, h6, h7⟩

/-- One good iteration from an invariant state either exits with an empty
waiter list, or continues with the invariant re-established. -/
theorem loop_step_good (ss : Nat) (s : LoopState) (o : RoundOracle)
    (hInv : Inv ss s) (hg : goodOracle ss s o = true) :
    (attach_all o.preAttach s.thdlist = [] ∧
      loop_step ss o s = .exit s.ret [] s.done) ∨
    (∃ s2, loop_step ss o s = .cont s2 ∧ Inv ss s2) := by
  obtain ⟨hret, hthd, hdone, hnodup⟩ := hInv
  obtain ⟨h1, h2, h3, h4, h5, h6, h7⟩ := goodOracle_spec ss s o hg
  have hnlt : ¬ s.ret < 0 := by omega
  by_cases hl0 : attach_all o.preAttach s.thdlist = []
  · left
    refine ⟨hl0, ?_⟩
    simp [loop_step, hnlt, hl0]
  · right
    have hm : ¬ o.mallocOk = false := by simp [h1]
    refine ⟨⟨o.readRet,
      round_kept ss o.readRet o.ws
        (attach_all o.newThds (attach_all o.preAttach s.thdlist)),
      s.done ++ round_done ss o.readRet o.ws
        (attach_all o.newThds (attach_all o.preAttach s.thdlist))⟩, ?_, ?_⟩
    · simp only [loop_step, if_neg hnlt, if_neg hl0, if_neg hm]
    · have hlt : o.readRet.toNat < 18446744073709551616 := by
        have := round_len_le ss (attach_all o.preAttach s.thdlist)
        omega
      have hbl : ∀ t ∈ attach_all o.newThds
          (attach_all o.preAttach s.thdlist), wfb ss t = true := by
        intro t ht
        have ht2 := (attach_all_perm o.newThds _).mem_iff.1 ht
        rcases List.mem_append.1 ht2 with hn | hl
        · exact h2 t (List.mem_append.2 (Or.inr hn))
        · have hl2 := (attach_all_perm o.preAttach s.thdlist).mem_iff.1 hl
          rcases List.mem_append.1 hl2 with hp | hs
          · exact h2 t (List.mem_append.2 (Or.inl hp))
          · exact hthd t hs
      have hall := step_each_good ss o.readRet o.ws
        (attach_all o.newThds (attach_all o.preAttach s.thdlist))
        h3 hlt h4 h6 hbl
      refine ⟨h3, ?_, ?_, ?_⟩
      · -- kept records are well-formed
        intro t ht
        obtain ⟨r, hr, hrt⟩ := List.mem_filterMap.1 ht
        have hprops := hall r hr
        cases hb : r.2
        · rw [hb] at hrt
          simp at hrt
          exact hrt ▸ hprops.1
        · rw [hb] at hrt
          simp at hrt
      · -- completed records carry success outcomes
        intro t ht
        rcases List.mem_append.1 ht with hold | hnew
        · exact hdone t hold
        · obtain ⟨r, hr, hrt⟩ := List.mem_filterMap.1 hnew
          have hprops := hall r hr
          cases hb : r.2
          · rw [hb] at hrt
            simp at hrt
          · rw [hb] at hrt
            simp at hrt
            obtain ⟨he, hn, hd⟩ := hprops.2 hb
            exact hrt ▸ ⟨he, hn, hd⟩
      · -- record identities stay distinct
        dsimp only
        have q3 := (round_split_perm ss o.readRet o.ws
          (attach_all o.newThds
            (attach_all o.preAttach s.thdlist))).map ThdEntry.tid
        simp only [List.map_append, List.map_map] at q3
        rw [show (List.map (ThdEntry.tid ∘ fun r => r.1)
            (step_each ss o.readRet o.ws
              (attach_all o.newThds (attach_all o.preAttach s.thdlist)))) =
            (List.map (fun r => r.1.tid)
              (step_each ss o.readRet o.ws
                (attach_all o.newThds
                  (attach_all o.preAttach s.thdlist)))) from rfl] at q3
        rw [step_each_map_tid ss o.readRet o.ws
          (attach_all o.newThds (attach_all o.preAttach s.thdlist))] at q3
        have e4 : (attach_all o.newThds
            (attach_all o.preAttach s.thdlist)).Perm
            (o.preAttach ++ o.newThds ++ s.thdlist) := by
          refine (attach_all_perm _ _).trans ?_
          refine ((attach_all_perm _ _).append_left o.newThds).trans ?_
          have h0 := (@List.perm_append_comm ThdEntry o.newThds
            o.preAttach).append_right s.thdlist
          simpa [List.append_assoc] using h0
        have e4m := e4.map ThdEntry.tid
        have W := q3.trans e4m
        -- W : map tid kept ++ map tid dnew ~ map tid (pre ++ new ++ thds)
        simp only [List.map_append] at W ⊢
        have r1 : ((round_kept ss o.readRet o.ws
            (attach_all o.newThds (attach_all o.preAttach s.thdlist))).map
              ThdEntry.tid ++
            (s.done.map ThdEntry.tid ++
              (round_done ss o.readRet o.ws
                (attach_all o.newThds
                  (attach_all o.preAttach s.thdlist))).map
                ThdEntry.tid)).Perm
            (((round_kept ss o.readRet o.ws
              (attach_all o.newThds (attach_all o.preAttach s.thdlist))).map
                ThdEntry.tid ++
              (round_done ss o.readRet o.ws
                (attach_all o.newThds
                  (attach_all o.preAttach s.thdlist))).map
                ThdEntry.tid) ++ s.done.map ThdEntry.tid) := by
          have h0 := (@List.perm_append_comm Nat
            (s.done.map ThdEntry.tid)
            ((round_done ss o.readRet o.ws
              (attach_all o.newThds
                (attach_all o.preAttach s.thdlist))).map
              ThdEntry.tid)).append_left
            ((round_kept ss o.readRet o.ws
              (attach_all o.newThds (attach_all o.preAttach s.thdlist))).map
              ThdEntry.tid)
          simpa [List.append_assoc] using h0
        refine (r1.trans
          (W.append_right (s.done.map ThdEntry.tid))).nodup_iff.2 ?_
        simpa [List.map_append] using h7

/-- Over any good oracle trace from an invariant state: every record the
worker completes carries the success outcome with exactly its requested
payload delivered, record identities stay distinct across live and
completed records, and the loop only ever exits with an already-empty
waiter list (so the final drain wakes nobody). -/
theorem read_thd_run_good (ss : Nat) (os : List RoundOracle) :
    ∀ s, Inv ss s → goodRun ss s os = true →
      (∀ t ∈ completedOf (read_thd_run ss s os),
        t.err = 0 ∧ t.nb = 0 ∧ t.delivered = t.nb0 * ss) ∧
      ((keptOf (read_thd_run ss s os) ++
        completedOf (read_thd_run ss s os)).map ThdEntry.tid).Nodup ∧
      (∀ ret dr done, read_thd_run ss s os = .finished ret dr done →
        dr = [] ∧ 0 ≤ ret) := by
  induction os with
  | nil =>
      intro s hInv hg
      obtain ⟨hret, hthd, hdone, hnodup⟩ := hInv
      refine ⟨fun t ht => hdone t ht, by simpa using hnodup, ?_⟩
      intro ret dr done h
      cases h
  | cons o os ih =>
      intro s hInv hg
      unfold goodRun at hg
      rw [Bool.and_eq_true] at hg
      obtain ⟨hgo, hrest⟩ := hg
      rcases loop_step_good ss s o hInv hgo with
        ⟨hempty, hstep⟩ | ⟨s2, hstep, hInv2⟩
      · obtain ⟨hret, hthd, hdone, hnodup⟩ := hInv
        have hrun : read_thd_run ss s (o :: os) =
            .finished s.ret (drain s.ret []) s.done := by
          unfold read_thd_run
          rw [hstep]
        rw [hrun]
        have hdr : drain s.ret ([] : List ThdEntry) = [] := rfl
        refine ⟨fun t ht => hdone t ht, ?_, ?_⟩
        · simp only [keptOf, completedOf, hdr, List.nil_append]
          rw [List.map_append] at hnodup
          exact hnodup.of_append_right
        · intro ret dr done h
          rw [hdr] at h
          cases h
          exact ⟨rfl, hret⟩
      · have hrun : read_thd_run ss s (o :: os) = read_thd_run ss s2 os := by
          show (match loop_step ss o s with
            | StepRes.exit ret l done =>
                RunRes.finished ret (drain ret l) done
            | StepRes.cont s2 => read_thd_run ss s2 os) =
            read_thd_run ss s2 os
          rw [hstep]
        rw [hstep] at hrest
        rw [hrun]
        exact ih s2 hInv2 hrest

/-! ### Failed rounds and the registry -/

/-- On a failed read the broadcast loop emits one status line per waiter
and removes nobody. -/
theorem step_each_neg (ss : Nat) (e : Int) (ws : List (List Nat))
    (l : List ThdEntry) (he : e < 0) :
    step_each ss e ws l = l.map fun t =>
      ({ t with fd := t.fd ++
        (if t.verbose then [OutItem.errMsg e] else [OutItem.status e]) },
        false) := by
  induction l generalizing ws with
  | nil => rfl
  | cons t rest ih =>
      rw [show step_each ss e ws (t :: rest) =
        step_thd ss e (ws.headD []) t :: step_each ss e ws.tail rest from
        rfl]
      rw [step_thd_neg ss e (ws.headD []) t he, ih ws.tail, List.map_cons]

theorem round_kept_neg (ss : Nat) (e : Int) (ws : List (List Nat))
    (l : List ThdEntry) (he : e < 0) :
    round_kept ss e ws l = l.map (fun t =>
      { t with fd := t.fd ++
        (if t.verbose then [OutItem.errMsg e] else [OutItem.status e]) }) ∧
    round_done ss e ws l = [] := by
  unfold round_kept round_done
  rw [step_each_neg ss e ws l he]
  constructor
  · rw [List.filterMap_map]
    exact congrFun (List.filterMap_eq_map _) _
  · rw [List.filterMap_map]
    rw [List.filterMap_eq_nil]
    intro a ha
    rfl

/-- After the worker removes its session, no session for that device is
found any more (device identities in the registry are distinct). -/
theorem find_after_remove (devlist : List Session) (d : Nat)
    (hnd : (devlist.map Session.dev).Nodup) :
    (remove_session devlist d).find? (fun e => e.dev = d) = none := by
  induction devlist with
  | nil => rfl
  | cons sess rest ih =>
      rw [List.map_cons, List.nodup_cons] at hnd
      obtain ⟨hmem, hrest⟩ := hnd
      rw [show remove_session (sess :: rest) d =
        (if sess.dev = d then rest else sess :: remove_session rest d) from
        rfl]
      by_cases hd : sess.dev = d
      · rw [if_pos hd]
        rw [List.find?_eq_none]
        intro x hx
        simp only [decide_eq_true_eq]
        intro hxd
        apply hmem
        rw [hd, ← hxd]
        exact List.mem_map_of_mem Session.dev hx
      · rw [if_neg hd]
        rw [List.find?_cons_of_neg _ (by simpa using hd)]
        exact ih hrest

/-- The broadcast body leaves the remaining count untouched whenever the
read returned no data (zero bytes or an error). -/
theorem step_thd_nonpos (ss : Nat) (ret : Int) (chunks : List Nat)
    (t : ThdEntry) (hret : ret ≤ 0) :
    (step_thd ss ret chunks t).1.nb = t.nb := by
  rcases lt_or_eq_of_le hret with hlt | heq
  · rw [step_thd_neg ss ret chunks t hlt]
  · subst heq
    have h0 : ¬ (0 : Int) < 0 := by omega
    simp only [step_thd, if_neg h0]
    simp [write_all_zero, to_size_t_zero]
    split_ifs <;> simp

/-! ### Initial states -/

/-- The state of a freshly started worker: carried `ret` is `0`, the
completions list is empty. -/
theorem Inv_init (ss : Nat) (l : List ThdEntry)
    (h1 : ∀ t ∈ l, wfb ss t = true) (h2 : (l.map ThdEntry.tid).Nodup) :
    Inv ss ⟨0, l, []⟩ := by
  refine ⟨le_refl 0, h1, by simp, by simpa using h2⟩

/-! ### Claims -/

/-- C1: in every running iteration whose waiter collection is non-empty,
the sample count requested from the blocking raw read (`roundBatch`,
turned into `round_len = batch * sample_size` bytes for
`iio_device_read_raw`) equals the minimum of the fixed per-iteration cap
`1024 / sample_size` and the smallest `remaining` over all currently
attached waiters — in particular it does not depend on how many waiters
there are, only on their minimum. -/
theorem claim_batch_min (ss : Nat) (l : List ThdEntry) (hl : l ≠ []) :
    roundBatch (1024 / ss) l = min (1024 / ss) (minRemaining l) ∧
    round_len ss l = min (1024 / ss) (minRemaining l) * ss := by
  refine ⟨roundBatch_eq_min l hl _, ?_⟩
  unfold round_len
  rw [roundBatch_eq_min l hl]

theorem claim_batch_min_witness :
    roundBatch (1024 / 4) [mk_thd 0 100 false, mk_thd 1 50 false] =
      min (1024 / 4) (minRemaining [mk_thd 0 100 false, mk_thd 1 50 false]) ∧
    round_len 4 [mk_thd 0 100 false, mk_thd 1 50 false] =
      min (1024 / 4)
        (minRemaining [mk_thd 0 100 false, mk_thd 1 50 false]) * 4 :=
  claim_batch_min 4 [mk_thd 0 100 false, mk_thd 1 50 false] (by decide)

/-- C3 (counterexample): a round whose hardware read succeeded (8 bytes,
a non-negative return) still emits output to a non-verbose waiter's sink:
the numeric status line `8` followed by the payload.  So "on success
nothing is emitted to any waiter's sink in that round" is false as
stated. -/
theorem claim_status_cex :
    (0 : Int) ≤ 8 ∧
    (step_thd 4 8 [8] ⟨0, 10, 10, 0, false, [], 0⟩).1.fd =
      [OutItem.status 8, OutItem.data 8] := by
  decide

/-- C3 (amended): per-round status emission as the code actually behaves:
a non-verbose waiter receives the round's raw return value as a status
line on every round, success or failure; a verbose waiter receives a
(human-readable) status line only when the read failed, and nothing on
success. -/
theorem claim_status_amended (ss : Nat) (ret : Int) (chunks : List Nat)
    (t : ThdEntry) :
    ((step_thd ss ret chunks t).1).fd.filter isStatusItem =
      t.fd.filter isStatusItem ++
        (if t.verbose then
          (if ret < 0 then [OutItem.errMsg ret] else [])
        else [OutItem.status ret]) := by
  by_cases hr : ret < 0
  · rw [step_thd_neg ss ret chunks t hr]
    cases hv : t.verbose <;>
      simp [List.filter_append, isStatusItem, hv, hr]
  · cases hv : t.verbose <;>
      simp only [step_thd, hv, if_neg hr, Bool.false_eq_true, if_false,
        if_true] <;>
    · split_ifs <;>
        simp_all [List.filter_append, isStatusItem]

/-- C4: demonstration of the unsigned-comparison slip at the write-failure
branch.  Sample size 4; a waiter still needing 10 samples; the round read
8 bytes but the waiter's sink accepts nothing, so `write_all` returns
`-EIO`.  Because `ret2` is declared `size_t`, `-EIO` converts to
`2^64 - 5`: the `ret2 > 0` branch corrupts `nb` from 10 to 12 (unsigned
wrap-around), and the `ret2 < 0` removal branch can never fire — the
waiter stays attached, its outcome is untouched and it is not woken,
contrary to the intended (dead) code right below. -/
theorem claim_write_error_bug :
    step_thd 4 8 [0] ⟨7, 10, 10, 0, true, [], 0⟩ =
      (⟨7, 10, 12, 0, true, [OutItem.data 0], 0⟩, false) := by
  decide

/-- C7: a streaming request whose sample size differs from the session
already active on the device fails immediately with `-EINVAL` (-22) and
has no side effects: the registry (and hence every existing waiter list
inside it) is returned unchanged, no session is created, the request is
not attached, and nothing is written to the requester's sink. -/
theorem claim_size_mismatch (devlist : List Session) (dev nb ss tid : Nat)
    (verbose : Bool) (tm em : Bool) (orr crr : Int) (e : Session)
    (hfind : devlist.find? (fun s2 => s2.dev = dev) = some e)
    (hss : e.sample_size ≠ ss) :
    read_buffer_setup devlist dev nb ss tid verbose tm em orr crr =
      ⟨-22, devlist, [], false, false⟩ := by
  simp [read_buffer_setup, hfind, hss]

theorem claim_size_mismatch_witness :
    read_buffer_setup [⟨5, 4, []⟩] 5 100 8 0 false true true 0 0 =
      ⟨-22, [⟨5, 4, []⟩], [], false, false⟩ :=
  claim_size_mismatch [⟨5, 4, []⟩] 5 100 8 0 false true true 0 0
    ⟨5, 4, []⟩ (by decide) (by decide)

/-- C8: an attribute read on a nonexistent device id writes exactly one
line: in non-verbose mode the bare code `-19` (`-ENODEV`), in verbose
mode only the human-readable error line with no duplicated numeric code;
both return `-19`. -/
theorem claim_attr_nodev (devices : List IioDevice)
    (ident attrName : String) (attrRet : Int) (ws1 ws2 : List Nat)
    (h : get_device devices ident = none) :
    read_dev_attr devices ident attrName false attrRet ws1 ws2 =
      (-19, [OutItem.status (-19)]) ∧
    read_dev_attr devices ident attrName true attrRet ws1 ws2 =
      (-19, [OutItem.errMsg (-19)]) := by
  unfold read_dev_attr
  rw [h]
  exact ⟨rfl, rfl⟩

theorem claim_attr_nodev_witness :
    read_dev_attr [⟨"iio:device0", "adc"⟩] "iio:device9" "raw" false 3
        [] [] = (-19, [OutItem.status (-19)]) ∧
    read_dev_attr [⟨"iio:device0", "adc"⟩] "iio:device9" "raw" true 3
        [] [] = (-19, [OutItem.errMsg (-19)]) :=
  claim_attr_nodev [⟨"iio:device0", "adc"⟩] "iio:device9" "raw" 3 [] []
    (by decide)

/-- C9: in the event trace of a normal worker iteration, the blocking
`iio_device_read_raw` call is the unique read event, both the registry
(devlist) lock and the waiter (thdlist) lock are held at some earlier
point but neither is held when the read is issued, and the waiter lock is
acquired only before (index 1) or strictly after (index 5) the read
(index 4). -/
theorem claim_lock_discipline :
    (∀ i, i < iterEvents.length →
      iterEvents.getD i .readRaw = .readRaw → i = 4) ∧
    heldAfter (iterEvents.take 1) = (true, false) ∧
    heldAfter (iterEvents.take 2) = (true, true) ∧
    heldAfter (iterEvents.take 4) = (false, false) ∧
    (∀ i, i < iterEvents.length →
      iterEvents.getD i .readRaw = .lockThd → i = 1 ∨ i = 5) := by
  decide

theorem claim_lock_discipline_witness :
    4 = 4 ∧ heldAfter (iterEvents.take 4) = (false, false) ∧ (1 = 1 ∨ 1 = 5) :=
  ⟨claim_lock_discipline.1 4 (by decide) (by decide),
    claim_lock_discipline.2.2.2.1,
    claim_lock_discipline.2.2.2.2 1 (by decide) (by decide)⟩

/-- C10: the byte length handed to the blocking read never exceeds 1024;
when `sample_size > 1024` the integer division `1024 / sample_size` makes
the cap zero, so every round requests 0 bytes, and (the read then
returning at most 0) no attached waiter's remaining count ever changes in
a round. -/
theorem claim_len_bound :
    (∀ (ss : Nat) (l : List ThdEntry), round_len ss l ≤ 1024) ∧
    (∀ (ss : Nat) (l : List ThdEntry), 1024 < ss →
      roundBatch (1024 / ss) l = 0 ∧ round_len ss l = 0) ∧
    (∀ (ss : Nat) (ret : Int) (ws : List (List Nat)) (l : List ThdEntry),
      1024 < ss → ret ≤ 0 →
      (step_each ss ret ws l).map (fun r => (r.1.tid, r.1.nb)) =
        l.map (fun t => (t.tid, t.nb))) := by
  refine ⟨fun ss l => round_len_le ss l, ?_, ?_⟩
  · intro ss l hss
    have hdiv : 1024 / ss = 0 := Nat.div_eq_of_lt hss
    have hb : roundBatch 0 l = 0 := Nat.le_zero.1 (roundBatch_le l 0)
    refine ⟨by rw [hdiv]; exact hb, ?_⟩
    unfold round_len
    rw [hdiv, hb]
    exact Nat.zero_mul ss
  · intro ss ret ws l hss hret
    induction l generalizing ws with
    | nil => rfl
    | cons t rest ih =>
        rw [show step_each ss ret ws (t :: rest) =
          step_thd ss ret (ws.headD []) t ::
            step_each ss ret ws.tail rest from rfl]
        rw [List.map_cons, List.map_cons]
        rw [step_thd_nonpos ss ret (ws.headD []) t hret,
          step_thd_tid ss ret (ws.headD []) t, ih ws.tail]

theorem claim_len_bound_witness :
    round_len 4 [mk_thd 0 100 false] ≤ 1024 ∧
    (roundBatch (1024 / 2000) [mk_thd 0 5 false] = 0 ∧
      round_len 2000 [mk_thd 0 5 false] = 0) ∧
    (step_each 2000 0 [[]] [mk_thd 0 5 false]).map
        (fun r => (r.1.tid, r.1.nb)) =
      [mk_thd 0 5 false].map (fun t => (t.tid, t.nb)) :=
  ⟨claim_len_bound.1 4 [mk_thd 0 100 false],
    claim_len_bound.2.1 2000 [mk_thd 0 5 false] (by decide),
    claim_len_bound.2.2 2000 0 [[]] [mk_thd 0 5 false] (by decide)
      (by decide)⟩

/-- C2 (counterexample): `read_buffer`'s success return
`nb * sample_size` (ops.c line 288) multiplies two C `unsigned int`s, so
it wraps modulo `2^32`.  A request for `2^26` samples at sample size 1024
(a well-formed record, and the session makes progress: the cap
`1024 / 1024 = 1` keeps the batch positive) is owed `2^36` bytes, but the
call returns 0 — not `nb * sample_size`. -/
theorem claim_concurrent_cex :
    read_buffer_result 67108864 1024 0 = 0 ∧
    ((67108864 * 1024 : Nat) : Int) ≠ 0 ∧
    wfb 1024 (mk_thd 0 67108864 false) = true ∧
    0 < roundBatch (1024 / 1024) [mk_thd 0 67108864 false] := by
  decide

/-- C2 (amended): over any well-behaved trace (reads succeed with whole
samples within the requested length, sinks accept the data, attaching
records are fresh and well-formed), every request the worker completes
carries the success outcome having received exactly its requested sample
count (`delivered = nb0 * sample_size` bytes), and `read_buffer` then
returns the C `unsigned int` product `nb * sample_size mod 2^32` — equal
to `nb * sample_size` whenever that is below `2^32`; on a negative
outcome it returns that error code; and once the waiter list is empty
(the last request completed), the very next loop iteration exits and the
worker finishes. -/
theorem claim_concurrent_exact (ss : Nat) (s : LoopState)
    (os : List RoundOracle) (hInv : Inv ss s)
    (hg : goodRun ss s os = true) :
    (∀ t ∈ completedOf (read_thd_run ss s os),
      t.err = 0 ∧ t.nb = 0 ∧ t.delivered = t.nb0 * ss ∧
      read_buffer_result t.nb0 ss t.err =
        ((t.nb0 * ss % 4294967296 : Nat) : Int) ∧
      (t.nb0 * ss < 4294967296 →
        read_buffer_result t.nb0 ss t.err = ((t.nb0 * ss : Nat) : Int))) ∧
    (∀ (err2 : Int) (nb2 ss2 : Nat), err2 < 0 →
      read_buffer_result nb2 ss2 err2 = err2) ∧
    (∀ (ret : Int) (done : List ThdEntry) (o : RoundOracle)
      (os2 : List RoundOracle), 0 ≤ ret → o.preAttach = [] →
      read_thd_run ss ⟨ret, [], done⟩ (o :: os2) = .finished ret [] done) := by
  obtain ⟨hcomp, hnodup, hfin⟩ := read_thd_run_good ss os s hInv hg
  refine ⟨?_, ?_, ?_⟩
  · intro t ht
    obtain ⟨he, hn, hd⟩ := hcomp t ht
    refine ⟨he, hn, hd, ?_, ?_⟩
    · rw [he]
      unfold read_buffer_result
      rw [if_neg (by omega)]
    · intro hlt
      rw [he]
      unfold read_buffer_result
      rw [if_neg (by omega), Nat.mod_eq_of_lt hlt]
  · intro err2 nb2 ss2 hneg
    unfold read_buffer_result
    rw [if_pos hneg]
  · intro ret done o os2 hret hpre
    have hstep : loop_step ss o ⟨ret, [], done⟩ = .exit ret [] done := by
      simp [loop_step, hpre, attach_all, not_lt.2 hret]
    show (match loop_step ss o ⟨ret, [], done⟩ with
      | StepRes.exit r l2 d => RunRes.finished r (drain r l2) d
      | StepRes.cont s2 => read_thd_run ss s2 os2) =
      RunRes.finished ret [] done
    rw [hstep]
    rfl

theorem claim_concurrent_exact_witness :
    (∀ t ∈ completedOf (read_thd_run 4 ⟨0, [mk_thd 0 2 false], []⟩
        [⟨true, [], [], 8, [[8]]⟩]),
      t.err = 0 ∧ t.nb = 0 ∧ t.delivered = t.nb0 * 4 ∧
      read_buffer_result t.nb0 4 t.err =
        ((t.nb0 * 4 % 4294967296 : Nat) : Int) ∧
      (t.nb0 * 4 < 4294967296 →
        read_buffer_result t.nb0 4 t.err = ((t.nb0 * 4 : Nat) : Int))) ∧
    (∀ (err2 : Int) (nb2 ss2 : Nat), err2 < 0 →
      read_buffer_result nb2 ss2 err2 = err2) ∧
    (∀ (ret : Int) (done : List ThdEntry) (o : RoundOracle)
      (os2 : List RoundOracle), 0 ≤ ret → o.preAttach = [] →
      read_thd_run 4 ⟨ret, [], done⟩ (o :: os2) =
        .finished ret [] done) :=
  claim_concurrent_exact 4 ⟨0, [mk_thd 0 2 false], []⟩
    [⟨true, [], [], 8, [[8]]⟩]
    (Inv_init 4 [mk_thd 0 2 false] (by decide) (by decide)) (by decide)

/-- C5: if round K's hardware read fails with the negative code `e`, the
broadcast of round K removes nobody (each waiter only gets its status
line), the next iteration exits the loop, and the drain hands every
waiter that was attached at the start of round K exactly the code `e` as
its outcome and wakes each of them once; independently, after the session
is removed from the registry, a lookup for the same device finds nothing
and a subsequent request creates a fresh session. -/
theorem claim_read_failure_drain (ss : Nat) (ret0 e : Int)
    (l done0 : List ThdEntry) (ws : List (List Nat)) (o2 : RoundOracle)
    (devlist : List Session) (d nb tid : Nat) (vb : Bool)
    (h0 : 0 ≤ ret0) (he : e < 0) (hl : l ≠ [])
    (h2 : o2.preAttach = [])
    (hnd : (devlist.map Session.dev).Nodup) :
    read_thd_run ss ⟨ret0, l, done0⟩ [⟨true, [], [], e, ws⟩, o2] =
      .finished e (l.map fun t =>
        { t with
          fd := t.fd ++ (if t.verbose then [OutItem.errMsg e]
            else [OutItem.status e]),
          err := e, woken := t.woken + 1 }) done0 ∧
    (remove_session devlist d).find? (fun e2 => e2.dev = d) = none ∧
    read_buffer_setup (remove_session devlist d) d nb ss tid vb true true
      0 0 =
      ⟨0, ⟨d, ss, [mk_thd tid nb vb]⟩ :: remove_session devlist d, [],
        true, true⟩ := by
  obtain ⟨hk, hd⟩ := round_kept_neg ss e ws l he
  have hf := find_after_remove devlist d hnd
  refine ⟨?_, hf, ?_⟩
  · have hstep1 : loop_step ss ⟨true, [], [], e, ws⟩ ⟨ret0, l, done0⟩ =
        .cont ⟨e, round_kept ss e ws l, done0 ++ round_done ss e ws l⟩ := by
      simp [loop_step, attach_all, not_lt.2 h0, hl]
    show (match loop_step ss ⟨true, [], [], e, ws⟩ ⟨ret0, l, done0⟩ with
      | StepRes.exit r l2 dn => RunRes.finished r (drain r l2) dn
      | StepRes.cont s2 => read_thd_run ss s2 [o2]) = _
    rw [hstep1]
    have hstep2 : loop_step ss o2
        ⟨e, round_kept ss e ws l, done0 ++ round_done ss e ws l⟩ =
        .exit e (round_kept ss e ws l)
          (done0 ++ round_done ss e ws l) := by
      have hat : attach_all o2.preAttach (round_kept ss e ws l) =
          round_kept ss e ws l := by rw [h2]; rfl
      simp [loop_step, he, hat]
    have hrun2 : (match loop_step ss o2
        ⟨e, round_kept ss e ws l, done0 ++ round_done ss e ws l⟩ with
      | StepRes.exit r l2 dn => RunRes.finished r (drain r l2) dn
      | StepRes.cont s2 => read_thd_run ss s2 ([] : List RoundOracle)) =
        RunRes.finished e (drain e (round_kept ss e ws l))
          (done0 ++ round_done ss e ws l) := by
      rw [hstep2]
    show (match loop_step ss o2
        ⟨e, round_kept ss e ws l, done0 ++ round_done ss e ws l⟩ with
      | StepRes.exit r l2 dn => RunRes.finished r (drain r l2) dn
      | StepRes.cont s2 => read_thd_run ss s2 ([] : List RoundOracle)) = _
    rw [hrun2, hd, hk, List.append_nil]
    have hmap : drain e (l.map fun t =>
        { t with fd := t.fd ++ (if t.verbose then [OutItem.errMsg e]
          else [OutItem.status e]) }) =
      l.map fun t =>
        { t with
          fd := t.fd ++ (if t.verbose then [OutItem.errMsg e]
            else [OutItem.status e]),
          err := e, woken := t.woken + 1 } := by
      unfold drain
      rw [List.map_map]
      refine List.map_congr_left ?_
      intro t ht
      simp [he]
    rw [hmap]
  · unfold read_buffer_setup
    rw [hf]
    rfl

theorem claim_read_failure_drain_witness :
    read_thd_run 4 ⟨0, [mk_thd 0 5 false], []⟩
      [⟨true, [], [], -5, [[]]⟩, ⟨true, [], [], 0, []⟩] =
      .finished (-5) ([mk_thd 0 5 false].map fun t =>
        { t with
          fd := t.fd ++ (if t.verbose then [OutItem.errMsg (-5)]
            else [OutItem.status (-5)]),
          err := -5, woken := t.woken + 1 }) [] ∧
    (remove_session [⟨1, 4, []⟩] 1).find? (fun e2 => e2.dev = 1) = none ∧
    read_buffer_setup (remove_session [⟨1, 4, []⟩] 1) 1 3 4 9 false true
      true 0 0 =
      ⟨0, ⟨1, 4, [mk_thd 9 3 false]⟩ :: remove_session [⟨1, 4, []⟩] 1, [],
        true, true⟩ :=
  claim_read_failure_drain 4 0 (-5) [mk_thd 0 5 false] [] [[]]
    ⟨true, [], [], 0, []⟩ [⟨1, 4, []⟩] 1 3 9 false (by decide) (by decide)
    (by decide) rfl (by decide)

/-- C6 (counterexample): remaining counts do not strictly decrease every
round.  At sample size 4, a round reads 8 bytes (2 samples) while a
waiter that attached mid-round still needs only 1 sample: the
`nb_samples > thd->nb` guard skips it, its remaining count stays 1
through a fully successful round (the write oracle would have accepted
everything). -/
theorem claim_remaining_cex :
    (step_thd 4 8 [8] ⟨3, 1, 1, 0, false, [], 0⟩).1.nb = 1 ∧
    (step_thd 4 8 [8] ⟨3, 1, 1, 0, false, [], 0⟩).2 = false ∧
    (write_all [8] 8).1 = 8 ∧ (0 : Int) ≤ 8 := by
  decide

/-- C6 (amended): in rounds whose read succeeded with whole samples and
whose sink write succeeds, a well-formed waiter's remaining count never
increases: it either stays unchanged (guard skip or empty read) or drops
by exactly the read's sample count, which never exceeds it (so the
unsigned subtraction cannot wrap below zero).  Across any good trace,
record identities remain distinct over live and completed records
together, so a record is removed (and signalled) exactly once. -/
theorem claim_remaining_monotone :
    (∀ (ss : Nat) (ret : Int) (chunks : List Nat) (t : ThdEntry),
      0 ≤ ret → ret.toNat < 18446744073709551616 → ss ∣ ret.toNat →
      (write_all chunks ret.toNat).1 = ((ret.toNat : Nat) : Int) →
      wfb ss t = true →
      ((step_thd ss ret chunks t).1.nb = t.nb ∨
        ((step_thd ss ret chunks t).1.nb + ret.toNat / ss = t.nb ∧
          ret.toNat / ss ≤ t.nb))) ∧
    (∀ (ss : Nat) (s : LoopState) (os : List RoundOracle), Inv ss s →
      goodRun ss s os = true →
      ((keptOf (read_thd_run ss s os) ++
        completedOf (read_thd_run ss s os)).map ThdEntry.tid).Nodup) := by
  constructor
  · intro ss ret chunks t hret hlt hdvd hw hwf
    have hwf2 := hwf
    unfold wfb at hwf2
    simp only [Bool.and_eq_true, beq_iff_eq, decide_eq_true_eq] at hwf2
    obtain ⟨⟨hdel, hle⟩, hlt32⟩ := hwf2
    have hnb32 : t.nb < 4294967296 := lt_of_le_of_lt hle hlt32
    rw [step_thd_success ss ret chunks t hret hlt hw hnb32]
    by_cases hguard : ret.toNat / ss > t.nb
    · rw [if_pos hguard]
      left
      rfl
    · rw [if_neg hguard]
      right
      have hgle : ret.toNat / ss ≤ t.nb := Nat.not_lt.1 hguard
      by_cases hrem : t.nb - ret.toNat / ss = 0
      · rw [if_pos hrem]
        exact ⟨by simp; omega, hgle⟩
      · rw [if_neg hrem]
        exact ⟨by simp; omega, hgle⟩
  · intro ss s os hInv hg
    exact (read_thd_run_good ss os s hInv hg).2.1

theorem claim_remaining_monotone_witness :
    ((step_thd 4 8 [8] (mk_thd 1 10 false)).1.nb = (mk_thd 1 10 false).nb ∨
      ((step_thd 4 8 [8] (mk_thd 1 10 false)).1.nb +
          (8 : Int).toNat / 4 = (mk_thd 1 10 false).nb ∧
        (8 : Int).toNat / 4 ≤ (mk_thd 1 10 false).nb)) ∧
    ((keptOf (read_thd_run 4 ⟨0, [mk_thd 1 2 false], []⟩
        [⟨true, [], [], 8, [[8]]⟩]) ++
      completedOf (read_thd_run 4 ⟨0, [mk_thd 1 2 false], []⟩
        [⟨true, [], [], 8, [[8]]⟩])).map ThdEntry.tid).Nodup :=
  ⟨claim_remaining_monotone.1 4 8 [8] (mk_thd 1 10 false) (by decide)
      (by decide) (by decide) (by decide) (by decide),
    claim_remaining_monotone.2 4 ⟨0, [mk_thd 1 2 false], []⟩
      [⟨true, [], [], 8, [[8]]⟩]
      (Inv_init 4 [mk_thd 1 2 false] (by decide) (by decide)) (by decide)⟩

end Iiod
